import Mathlib

/-!
Verification of the shift-roster ("malla de turnos") repository.

The development shallowly embeds the grid-reconciliation and backup
subsystem of the repository: the month-length computations, the
per-employee month query (get_turnos_empleado_mes), the wide-grid
loader (get_malla_turnos), the wide-grid saver (guardar_malla_turnos),
the JSON import of users and assignments (importar_backup_json), the
snapshot rotation (crear_backup_automatico) and the restore operation
(restaurar_backup).

The malla_turnos table is embedded as a list of rows; the sqlite
clause INSERT OR REPLACE together with the schema constraint
UNIQUE(empleado_id, mes, ano, dia) is embedded as removal of the
conflicting rows followed by an append.  Surrogate row ids and
updated_at timestamps are not part of the embedded state: the data
model of the specification identifies an Assignment with the tuple
(employee-id, year, month, day, shift-code).
-/

/-! ### Month lengths -/

/-- Days table of Python's calendar module (calendar.mdays): index 0 is a
placeholder, index m is the length of month m in a non-leap year. -/
def mdays : List Nat := [0, 31, 28, 31, 30, 31, 30, 31, 31, 30, 31, 30, 31]

/-- Python's calendar.isleap: year divisible by 4 and (not by 100 or by 400). -/
def isleap (ano : Nat) : Bool := ano % 4 = 0 && (ano % 100 ≠ 0 || ano % 400 = 0)

/-- Number of days of the month, as computed by Python's
calendar.monthrange(ano, mes)[1], which malla.py uses in
get_malla_turnos, get_turnos_empleado_mes and guardar_malla_turnos.
Modelled from the Python standard library source:
mdays[month] + (month == 2 and isleap(year)).  Meaningful for mes in 1..12
(the Python function raises IllegalMonthError outside that range). -/
def monthrange (ano mes : Nat) : Nat :=
  mdays.getD mes 0 + (if mes = 2 && isleap ano then 1 else 0)

/-- Day count used by database.py's get_malla_turnos (lines 244-248):
dias = 31; if mes in [4, 6, 9, 11]: dias = 30; if mes == 2: dias = 28.
February is always 28 there, with no leap-year correction. -/
def diasDelMesDatabase (mes : Nat) : Nat :=
  let dias := 31
  let dias := if mes = 4 ∨ mes = 6 ∨ mes = 9 ∨ mes = 11 then 30 else dias
  if mes = 2 then 28 else dias

/-- Modelled from the spec: the calendar-standard month length
(28/29/30/31, with leap-year February of 29 days).  Written from the
specification's words, to be compared with the code-side functions. -/
def daysInMonthSpec (ano mes : Nat) : Nat :=
  if mes = 2 then
    (if (ano % 4 = 0 ∧ ano % 100 ≠ 0) ∨ ano % 400 = 0 then 29 else 28)
  else if mes = 4 ∨ mes = 6 ∨ mes = 9 ∨ mes = 11 then 30
  else 31

/-! ### Data model -/

/-- A row of the empleados table, restricted to the columns the embedded
operations read: id (primary key), numero (display order) and cedula
(the national id, declared UNIQUE NOT NULL by the schema). -/
structure Empleado where
  id : Nat
  numero : Nat
  cedula : String
deriving DecidableEq, Repr

/-- A row of the malla_turnos table: empleado_id, mes, ano, dia and the
nullable codigo_turno.  The surrogate autoincrement id and the
updated_at timestamp are not modelled (see the file header). -/
structure TurnoRow where
  empleado_id : Nat
  mes : Nat
  ano : Nat
  dia : Nat
  codigo : Option String
deriving DecidableEq, Repr

/-- The conflict key of the schema constraint
UNIQUE(empleado_id, mes, ano, dia). -/
structure Key where
  empleadoId : Nat
  mes : Nat
  ano : Nat
  dia : Nat
deriving DecidableEq, Repr

def keyOf (r : TurnoRow) : Key := ⟨r.empleado_id, r.mes, r.ano, r.dia⟩

def mkRow (k : Key) (v : Option String) : TurnoRow :=
  ⟨k.empleadoId, k.mes, k.ano, k.dia, v⟩

/-- The uniqueness invariant of the malla_turnos table: at most one row
per (empleado_id, mes, ano, dia), i.e. the list of keys has no
duplicate. -/
def mallaInv (s : List TurnoRow) : Prop := (s.map keyOf).Nodup

instance (s : List TurnoRow) : Decidable (mallaInv s) := by
  unfold mallaInv; infer_instance

/-- INSERT OR REPLACE INTO malla_turnos under the UNIQUE constraint:
the conflicting row is removed and the new row inserted. -/
def upsertTurno (s : List TurnoRow) (k : Key) (v : Option String) : List TurnoRow :=
  s.filter (fun r => keyOf r ≠ k) ++ [mkRow k v]

/-- Lookup of the row with a given key.  The list is searched from the
end so that, would the uniqueness invariant be violated, the most
recently inserted row wins - matching the dictionary-overwrite reads of
the Python code. -/
def lookupK (s : List TurnoRow) (k : Key) : Option (Option String) :=
  (s.reverse.find? (fun r => keyOf r = k)).map (fun r => r.codigo)

/-! ### Python string primitives

The source normalises cell values with str.strip() and str.lower().
These are embedded as structural functions over the character list, so
that concrete witnesses evaluate inside the kernel. -/

/-- The whitespace characters stripped by Python's str.strip():
space, tab, newline, carriage return, vertical tab and form feed. -/
def pyIsSpace (c : Char) : Bool :=
  c.toNat = 32 || c.toNat = 9 || c.toNat = 10 || c.toNat = 13 ||
  c.toNat = 11 || c.toNat = 12

/-- Python's str.strip(): remove leading and trailing whitespace. -/
def pyStrip (s : String) : String :=
  ⟨((s.data.dropWhile pyIsSpace).reverse.dropWhile pyIsSpace).reverse⟩

/-- Python's str.lower(), restricted to ASCII letters (the shift codes
of this repository are short ASCII strings). -/
def pyLowerChar (c : Char) : Char :=
  if 65 ≤ c.toNat ∧ c.toNat ≤ 90 then Char.ofNat (c.toNat + 32) else c

def pyLower (s : String) : String := ⟨s.data.map pyLowerChar⟩

/-! ### get_turnos_empleado_mes (malla.py lines 512-558) -/

/-- Normalisation applied by get_turnos_empleado_mes when filling the
result dictionary from a fetched (dia, codigo_turno) pair:
if codigo is not None and str(codigo).strip() != '' and
str(codigo).strip().lower() != 'nan' then the stripped code, else "". -/
def normalizeCodigo : Option String → String
  | none => ""
  | some c => if pyStrip c ≠ "" ∧ pyLower (pyStrip c) ≠ ("nan") then pyStrip c else ""

/-- The query SELECT dia, codigo_turno FROM malla_turnos WHERE
empleado_id = ? AND mes = ? AND ano = ?.  The ORDER BY dia of the source
is omitted: the result feeds a day-keyed dictionary, so the order is
irrelevant whenever the uniqueness invariant holds, and the theorems
assume it. -/
def queryTurnos (s : List TurnoRow) (empleadoId mes ano : Nat) :
    List (Nat × Option String) :=
  (s.filter (fun r => r.empleado_id = empleadoId ∧ r.mes = mes ∧ r.ano = ano)).map
    (fun r => (r.dia, r.codigo))

/-- The dictionary construction of get_turnos_empleado_mes: first every
day 1..num is given the default "", then each fetched pair overwrites
its day with the normalised code. -/
def mkTurnosDict (num : Nat) (turnos : List (Nat × Option String)) :
    Nat → Option String :=
  turnos.foldl (fun m p => Function.update m p.1 (some (normalizeCodigo p.2)))
    (fun d => if 1 ≤ d ∧ d ≤ num then some ("") else none)

/-- get_turnos_empleado_mes of malla.py.  The result dictionary is
embedded as a partial function from day to code (none = key absent).
dbError models an exception raised inside the try block (the function
then returns the empty dictionary); the employee-existence check
SELECT id FROM empleados WHERE id = ? is embedded over the empleados
list. -/
def getTurnosEmpleadoMes (empleados : List Empleado) (s : List TurnoRow)
    (empleadoId mes ano : Nat) (dbError : Bool) : Nat → Option String :=
  if dbError then fun _ => none
  else if empleados.any (fun e => e.id = empleadoId) then
    mkTurnosDict (monthrange ano mes) (queryTurnos s empleadoId mes ano)
  else fun _ => none

/-! ### The wide grid and guardar_malla_turnos (malla.py lines 563-610) -/

/-- A cell of the wide table.  nullv models a pandas NaN or Python None
(the values caught by pd.isna(codigo) or codigo is None); str models
every other value, after Python's str() conversion. -/
inductive Cell where
  | nullv : Cell
  | str : String → Cell
deriving DecidableEq, Repr

/-- A row of the wide table, restricted to what guardar_malla_turnos
reads: the CC column (national id, already str()-converted) and the day
columns.  cells d = some c means the column "d/mes/ano" is present in
the table with value c; none means the column is absent. -/
structure GridRow where
  cc : String
  cells : Nat → Option Cell

/-- The per-cell conversion of guardar_malla_turnos: a NaN/None or
blank cell yields a null code, anything else its stripped str(). -/
def procesarCelda : Cell → Option String
  | Cell.nullv => none
  | Cell.str s => if pyStrip s = "" then none else some (pyStrip s)

/-- The dictionary id_por_cedula built by guardar_malla_turnos:
id_por_cedula[str(emp['cedula'])] = emp['id'], iterating the empleados
table in order (a later employee with the same cedula overwrites an
earlier one, as in a Python dict). -/
def mapIdsOf (empleados : List Empleado) : String → Option Nat :=
  empleados.foldl (fun m e => Function.update m e.cedula (some e.id)) (fun _ => none)

/-- The inner day loop of guardar_malla_turnos for one resolved
employee: for each day, if the column is present, INSERT OR REPLACE the
processed cell value (if col_name in row guards absent columns). -/
def saveRowTurnos (empId mes ano : Nat) (row : GridRow) (days : List Nat)
    (s : List TurnoRow) : List TurnoRow :=
  days.foldl (fun st d =>
    match row.cells d with
    | some c => upsertTurno st ⟨empId, mes, ano, d⟩ (procesarCelda c)
    | none => st) s

/-- guardar_malla_turnos of malla.py: resolve each row's CC through
id_por_cedula (empty or unknown CC rows are skipped), then upsert every
present day column of the month. -/
def guardarMallaTurnos (empleados : List Empleado) (dfMalla : List GridRow)
    (mes ano : Nat) (s : List TurnoRow) : List TurnoRow :=
  dfMalla.foldl (fun st row =>
    if row.cc = "" then st
    else
      match mapIdsOf empleados row.cc with
      | none => st
      | some empId =>
          saveRowTurnos empId mes ano row (List.range' 1 (monthrange ano mes)) st) s

/-! ### get_malla_turnos (malla.py lines 455-510) -/

/-- The value placed by get_malla_turnos in the cell of employee empId
and day d: the row's codigo_turno if non-null and non-empty, else ""
(turnos_dict[emp_id][dia] = codigo if codigo else "", default "").
Rows of other days or months never reach the cell, and the ORDER BY
e.numero of the source only permutes grid rows. -/
def cellValueOf (s : List TurnoRow) (empId mes ano d : Nat) : String :=
  match lookupK s ⟨empId, mes, ano, d⟩ with
  | some (some c) => if c = "" then "" else c
  | some none => ""
  | none => ""

/-- The wide-table row get_malla_turnos builds for one employee: its
CC and one present cell per day 1..monthrange. -/
def gridRowOf (s : List TurnoRow) (mes ano : Nat) (e : Empleado) : GridRow :=
  { cc := e.cedula
    cells := fun d =>
      if 1 ≤ d ∧ d ≤ monthrange ano mes
      then some (Cell.str (cellValueOf s e.id mes ano d)) else none }

/-- get_malla_turnos of malla.py, restricted to the columns that
guardar_malla_turnos reads back: one row per employee carrying its CC
and one present column per day 1..monthrange. -/
def getMallaTurnos (empleados : List Empleado) (s : List TurnoRow)
    (mes ano : Nat) : List GridRow :=
  empleados.map (gridRowOf s mes ano)

/-! ### Write-list view of guardar_malla_turnos

guardar_malla_turnos performs a sequence of INSERT OR REPLACE whose
keys and values do not depend on the current store contents.  The
lemmas below re-express the nested loops as that sequence, which the
round-trip, idempotence and invariant theorems then analyse. -/

abbrev Write := Key × Option String

def applyWrites (W : List Write) (s : List TurnoRow) : List TurnoRow :=
  W.foldl (fun st w => upsertTurno st w.1 w.2) s

/-- The writes of the inner day loop for one resolved employee row. -/
def rowWrites (empId mes ano : Nat) (row : GridRow) (days : List Nat) : List Write :=
  days.filterMap (fun d =>
    (row.cells d).map (fun c => (⟨empId, mes, ano, d⟩, procesarCelda c)))

/-- The writes of the whole save, in execution order. -/
def writesOf (empleados : List Empleado) (dfMalla : List GridRow)
    (mes ano : Nat) : List Write :=
  dfMalla.flatMap (fun row =>
    if row.cc = "" then []
    else
      match mapIdsOf empleados row.cc with
      | none => []
      | some empId =>
          rowWrites empId mes ano row (List.range' 1 (monthrange ano mes)))

/-- Keep only the last write per key (what a write sequence leaves in
the store). -/
def canonW : List Write → List Write
  | [] => []
  | w :: ws => if ws.any (fun w2 => w2.1 = w.1) then canonW ws else w :: canonW ws

/-- The value of the last write with the given key, if any. -/
def lastVal (W : List Write) (k : Key) : Option (Option String) :=
  (W.reverse.find? (fun w => w.1 = k)).map (fun w => w.2)

/-! ### importar_backup_json (malla.py lines 2199-2290) -/

/-- A usuarios entry of the JSON backup document.  Missing fields are
none (user.get returns None). -/
structure JsonUser where
  username : String
  password_hash : Option String
  role : String
  nombre : String
  departamento : Option String
deriving DecidableEq, Repr

/-- A row of the usuarios table as written by the import. -/
structure StoredUser where
  username : String
  password_hash : String
  role : String
  nombre : String
  departamento : String
deriving DecidableEq, Repr

/-- The usuarios branch of importar_backup_json for one record: if the
document carries no password hash (user.get('password_hash') is None or
the falsy ""), the fixed placeholder hash of the constant "temp123" is
stored instead.  hashFn abstracts hashlib.sha256(...).hexdigest(). -/
def importUser (hashFn : String → String) (u : JsonUser) : StoredUser :=
  let ph := match u.password_hash with
    | none => hashFn ("temp123")
    | some s => if s = "" then hashFn ("temp123") else s
  { username := u.username
    password_hash := ph
    role := u.role
    nombre := u.nombre
    departamento := u.departamento.getD ("Administración") }

/-- The usuarios table produced by the import loop (the table was
cleared by DELETE FROM usuarios first). -/
def importUsuarios (hashFn : String → String) (users : List JsonUser) :
    List StoredUser :=
  users.map (importUser hashFn)

/-- A plain INSERT INTO malla_turnos under the UNIQUE constraint: it
fails (sqlite IntegrityError) when a row with the same key exists. -/
def insertTurnoUnique (s : List TurnoRow) (r : TurnoRow) : Option (List TurnoRow) :=
  if s.any (fun r2 => keyOf r2 = keyOf r) then none else some (s ++ [r])

/-- The malla_turnos import loop, starting from the emptied table. -/
def importMallaRows : List TurnoRow → List TurnoRow → Option (List TurnoRow)
  | acc, [] => some acc
  | acc, r :: rs =>
      match insertTurnoUnique acc r with
      | none => none
      | some acc2 => importMallaRows acc2 rs

/-- The malla_turnos branch of importar_backup_json: DELETE FROM
malla_turnos, then INSERT each document row.  An IntegrityError (or any
other failure inside the try block, e.g. in another table's loop) makes
the function return False before conn.commit(), so the open transaction
is rolled back and the store keeps its previous contents. -/
def importarMalla (s : List TurnoRow) (docRows : List TurnoRow) : List TurnoRow :=
  match importMallaRows [] docRows with
  | some s2 => s2
  | none => s

/-! ### crear_backup_automatico (malla.py lines 797-829)

The backup directory is embedded as a list of (name, mtime) pairs of
the files matching turnos_backup_*.db; names are the numeric timestamps
of the snapshot file names.  shutil.copy2 preserves the source's
modification time, so the mtime of a snapshot is the live store's mtime
at copy time, passed as a parameter. -/

/-- Insert into a list sorted by strictly descending mtime.  Together
with sortDescMtime this embeds Python's
sorted(..., key=os.path.getmtime, reverse=True); the two agree whenever
the mtimes are distinct, which the theorems assume. -/
def insertDescMtime (x : Nat × Nat) : List (Nat × Nat) → List (Nat × Nat)
  | [] => [x]
  | y :: ys => if x.2 ≤ y.2 then y :: insertDescMtime x ys else x :: y :: ys

def sortDescMtime : List (Nat × Nat) → List (Nat × Nat)
  | [] => []
  | x :: xs => insertDescMtime x (sortDescMtime xs)

/-- crear_backup_automatico: if the live store file does not exist,
return None and leave the directory alone.  Otherwise copy the store to
turnos_backup_{ts}.db (overwriting a same-named file), then - only when
running on Streamlit Cloud - if more than maxBackups snapshots exist,
delete all but the maxBackups most recent by mtime.  Returns the
snapshot name and the resulting directory. -/
def crearBackupAutomatico (isCloud : Bool) (maxBackups : Nat) (dbExists : Bool)
    (ts dbMtime : Nat) (dir : List (Nat × Nat)) :
    Option Nat × List (Nat × Nat) :=
  if dbExists then
    let dir2 := dir.filter (fun f => f.1 ≠ ts) ++ [(ts, dbMtime)]
    let backups := sortDescMtime dir2
    let final :=
      if isCloud && decide (maxBackups < backups.length)
      then backups.take maxBackups else backups
    (some ts, final)
  else (none, dir)

/-- n successive calls of crear_backup_automatico with an existing live
store, the i-th call using timestamp i and a live-store mtime of i
(strictly increasing), starting from an empty backup directory. -/
def iterBackups (isCloud : Bool) (maxBackups : Nat) : Nat → List (Nat × Nat)
  | 0 => []
  | n + 1 =>
      (crearBackupAutomatico isCloud maxBackups true n n
        (iterBackups isCloud maxBackups n)).2

/-- The expected directory contents: len files with names and mtimes
top, top-1, ..., in descending order. -/
def descRun (top len : Nat) : List (Nat × Nat) :=
  (List.range len).map (fun i => (top - i, top - i))

/-! ### restaurar_backup (malla.py lines 831-855) -/

/-- The file-system and cache state seen by restaurar_backup.  Store
contents are abstracted to Nat; caches records which store content the
in-memory session caches (empleados_df, codigos_turno, configuracion)
were last loaded from. -/
structure RestoreState where
  db : Option Nat
  rescues : List Nat
  caches : Option Nat
deriving DecidableEq, Repr

/-- restaurar_backup: first copy the current live store (when it
exists) to a rescue file; then copy the chosen snapshot over the live
store and reload the session caches from it.  When the snapshot file
does not exist, shutil.copy2 raises, the except branch returns False,
and the live store is left unchanged (the rescue copy already made is
kept). -/
def restaurarBackup (snapshot : Option Nat) (st : RestoreState) :
    Bool × RestoreState :=
  let st1 :=
    match st.db with
    | some c => { st with rescues := c :: st.rescues }
    | none => st
  match snapshot with
  | none => (false, st1)
  | some c => (true, { st1 with db := some c, caches := some c })

/-! ### General helper lemmas -/

theorem find?_of_unique_match {α : Type} (l : List α) (p : α → Bool) (x : α)
    (hx : x ∈ l) (hpx : p x = true) (huniq : ∀ y ∈ l, p y = true → y = x) :
    l.find? p = some x := by
  induction l with
  | nil => cases hx
  | cons a l ih =>
      by_cases hpa : p a = true
      · rw [List.find?_cons_of_pos _ hpa]
        exact congrArg some (huniq a (List.mem_cons_self a l) hpa)
      · rw [List.find?_cons_of_neg _ hpa]
        rcases List.mem_cons.mp hx with h | h
        · exact absurd (h ▸ hpx) hpa
        · exact ih h (fun y hy => huniq y (List.mem_cons_of_mem a hy))

theorem find?_filter_eq {α : Type} (l : List α) (q p : α → Bool) :
    (l.filter q).find? p = l.find? (fun a => q a && p a) := by
  induction l with
  | nil => rfl
  | cons a l ih =>
      by_cases hq : q a = true
      · rw [List.filter_cons_of_pos hq]
        by_cases hp : p a = true
        · rw [List.find?_cons_of_pos _ hp, List.find?_cons_of_pos]
          simp [hq, hp]
        · rw [List.find?_cons_of_neg _ hp, List.find?_cons_of_neg, ih]
          simp [hq, hp]
      · rw [List.filter_cons_of_neg hq, List.find?_cons_of_neg, ih]
        simp [hq]

theorem foldl_update_eq {γ α β : Type} [DecidableEq α] (key : γ → α) (val : γ → β) :
    ∀ (l : List γ) (m : α → β) (x : α),
      (l.foldl (fun m g => Function.update m (key g) (val g)) m) x =
        ((l.reverse.find? (fun g => key g = x)).map val).getD (m x) := by
  intro l
  induction l with
  | nil => intro m x; rfl
  | cons g l ih =>
      intro m x
      rw [List.foldl_cons, ih, List.reverse_cons, List.find?_append]
      cases hfind : l.reverse.find? (fun g2 => key g2 = x) with
      | some g2 => simp [hfind]
      | none =>
          simp only [hfind, Option.none_or]
          by_cases hx : key g = x
          · subst hx; simp
          · rw [Function.update_noteq (fun h : x = key g => hx h.symm)]
            have hd : decide (key g = x) = false := by simp [hx]
            simp [hd]

/-! ### Claim theorems: month lengths (C2) -/

/-- Claim C2: the day columns built by malla.py's month-handling
functions (via monthrange) match the calendar-standard
days_in_month for months 1..12 including leap-year February, but
database.py's get_malla_turnos hardcodes February to 28 days: at
year 2024, month 2 it builds 28 day columns while the calendar
standard (and malla.py) gives 29. -/
theorem claimC2_theorem :
    diasDelMesDatabase 2 = 28 ∧ daysInMonthSpec 2024 2 = 29 ∧
    monthrange 2024 2 = 29 ∧
    ∀ ano mes, 1 ≤ mes → mes ≤ 12 → monthrange ano mes = daysInMonthSpec ano mes := by
  refine ⟨by decide, by decide, by decide, ?_⟩
  intro ano mes h1 h2
  interval_cases mes <;>
    simp only [monthrange, daysInMonthSpec, mdays, isleap, List.getD] <;>
    norm_num <;>
    by_cases h4 : ano % 4 = 0 <;> by_cases h100 : ano % 100 = 0 <;>
      by_cases h400 : ano % 400 = 0 <;>
      simp [h4, h100, h400] <;> omega

/-- Witness for C2: the general month-length agreement applied at
year 2026, month 4. -/
theorem claimC2_witness :
    (1 ≤ 4 ∧ 4 ≤ 12) ∧ monthrange 2026 4 = daysInMonthSpec 2026 4 :=
  ⟨by decide, claimC2_theorem.2.2.2 2026 4 (by decide) (by decide)⟩

/-! ### Backup rotation lemmas (C5) -/

theorem insertDescMtime_of_head_lt (x : Nat × Nat) (l : List (Nat × Nat))
    (h : ∀ y ∈ l, y.2 < x.2) : insertDescMtime x l = x :: l := by
  cases l with
  | nil => rfl
  | cons y ys =>
      have hy : y.2 < x.2 := h y (List.mem_cons_self y ys)
      unfold insertDescMtime
      rw [if_neg (by omega)]

theorem sortDescMtime_append_max (l : List (Nat × Nat)) (x : Nat × Nat)
    (hs : l.Pairwise (fun a b => b.2 < a.2)) (h : ∀ y ∈ l, y.2 < x.2) :
    sortDescMtime (l ++ [x]) = x :: l := by
  induction l with
  | nil => rfl
  | cons a l ih =>
      rcases List.pairwise_cons.mp hs with ⟨ha, hl⟩
      have hax : a.2 < x.2 := h a (List.mem_cons_self a l)
      show insertDescMtime a (sortDescMtime (l ++ [x])) = x :: a :: l
      rw [ih hl (fun y hy => h y (List.mem_cons_of_mem a hy))]
      unfold insertDescMtime
      rw [if_pos (by omega), insertDescMtime_of_head_lt a l ha]

theorem descRun_succ (top len : Nat) :
    descRun top (len + 1) = (top, top) :: descRun (top - 1) len := by
  unfold descRun
  rw [List.range_succ_eq_map, List.map_cons, List.map_map]
  refine congrArg₂ _ (by simp) (List.map_congr_left ?_)
  intro i _
  simp only [Function.comp_apply]
  have h : top - (i + 1) = top - 1 - i := by omega
  simp [h]

theorem descRun_mem (top len : Nat) (y : Nat × Nat) (hy : y ∈ descRun top len) :
    y.1 ≤ top ∧ y.1 = y.2 ∧ 0 < len := by
  rcases List.mem_map.mp hy with ⟨i, hi, rfl⟩
  exact ⟨Nat.sub_le top i, rfl, Nat.pos_of_ne_zero (by rintro rfl; cases hi)⟩

theorem descRun_pairwise (top len : Nat) (h : len ≤ top + 1) :
    (descRun top len).Pairwise (fun a b => b.2 < a.2) := by
  unfold descRun
  rw [List.pairwise_map]
  refine (List.pairwise_lt_range len).imp_of_mem ?_
  intro i j hi hj hij
  have hilt : i < len := List.mem_range.mp hi
  have hjlt : j < len := List.mem_range.mp hj
  simp only
  omega

theorem descRun_take (top len j : Nat) :
    (descRun top len).take j = descRun top (min j len) := by
  unfold descRun
  rw [← List.map_take, List.take_range]

theorem descRun_length (top len : Nat) : (descRun top len).length = len := by
  unfold descRun
  rw [List.length_map, List.length_range]

/-- One call of crear_backup_automatico on a directory holding the m
most recent snapshots. -/
theorem crearBackup_descRun_step (c : Bool) (N n m : Nat) (hm : m ≤ n) :
    (crearBackupAutomatico c N true n n (descRun (n - 1) m)).2 =
      (if c && decide (N < m + 1) then ((n, n) :: descRun (n - 1) m).take N
       else (n, n) :: descRun (n - 1) m) := by
  have hlen : m ≤ (n - 1) + 1 := by omega
  have hmem : ∀ y ∈ descRun (n - 1) m, y.1 ≤ n - 1 ∧ y.1 = y.2 ∧ 0 < m :=
    fun y hy => descRun_mem (n - 1) m y hy
  have hfilter : (descRun (n - 1) m).filter (fun f => f.1 ≠ n) = descRun (n - 1) m := by
    apply List.filter_eq_self.mpr
    intro y hy
    have h1 := (hmem y hy).1
    have h3 := (hmem y hy).2.2
    simp only [decide_eq_true_eq]
    omega
  have hsortstep :
      sortDescMtime (descRun (n - 1) m ++ [(n, n)]) = (n, n) :: descRun (n - 1) m := by
    apply sortDescMtime_append_max _ _ (descRun_pairwise _ _ hlen)
    intro y hy
    have h1 := (hmem y hy).1
    have h2 := (hmem y hy).2.1
    have h3 := (hmem y hy).2.2
    omega
  unfold crearBackupAutomatico
  simp only [hfilter, hsortstep, List.length_cons, descRun_length]
  simp

/-- Without the Streamlit Cloud flag no snapshot is ever deleted: after
n calls all n snapshots remain. -/
theorem iterBackups_false_eq (N : Nat) :
    ∀ n, iterBackups false N n = descRun (n - 1) n := by
  intro n
  induction n with
  | zero => simp [iterBackups, descRun]
  | succ n ih =>
      show (crearBackupAutomatico false N true n n (iterBackups false N n)).2 = _
      rw [ih, crearBackup_descRun_step false N n n (le_refl n)]
      simp only [Bool.false_and, Bool.false_eq_true, if_false]
      have h1 : n + 1 - 1 = n := by omega
      rw [h1, descRun_succ]

/-- With the Streamlit Cloud flag the directory always holds the
min n N most recent snapshots. -/
theorem iterBackups_true_eq (N : Nat) :
    ∀ n, iterBackups true N n = descRun (n - 1) (min n N) := by
  intro n
  induction n with
  | zero => simp [iterBackups, descRun]
  | succ n ih =>
      show (crearBackupAutomatico true N true n n (iterBackups true N n)).2 = _
      rw [ih, crearBackup_descRun_step true N n (min n N) (Nat.min_le_left n N)]
      have h1 : n + 1 - 1 = n := by omega
      rw [h1]
      by_cases hc : N < min n N + 1
      · rw [if_pos (by simp [hc])]
        have hmin : min n N = N := by omega
        have hmin2 : min (n + 1) N = N := by omega
        rw [hmin, hmin2]
        cases N with
        | zero => simp [descRun]
        | succ N2 =>
            rw [List.take_succ_cons, descRun_take, descRun_succ]
            have : min N2 (N2 + 1) = N2 := by omega
            rw [this]
      · rw [if_neg (by simp [hc])]
        have hmin : min n N = n := by omega
        have hmin2 : min (n + 1) N = n + 1 := by omega
        rw [hmin, hmin2, descRun_succ]

/-- Claim C5 (amended): snapshot rotation is performed only when the
Streamlit Cloud flag is set.  In cloud mode, with strictly increasing
snapshot timestamps and mtimes, after N + k calls with an existing live
store exactly N snapshot files remain, namely the N most recent; in
local mode no snapshot is ever deleted, so all N + k remain. -/
theorem claimC5_amended :
    (∀ N k, iterBackups true N (N + k) = descRun (N + k - 1) N ∧
       (iterBackups true N (N + k)).length = N) ∧
    (∀ N k, iterBackups false N (N + k) = descRun (N + k - 1) (N + k) ∧
       (iterBackups false N (N + k)).length = N + k) := by
  constructor
  · intro N k
    have h := iterBackups_true_eq N (N + k)
    have hmin : min (N + k) N = N := by omega
    rw [hmin] at h
    exact ⟨h, by rw [h, descRun_length]⟩
  · intro N k
    have h := iterBackups_false_eq N (N + k)
    exact ⟨h, by rw [h, descRun_length]⟩

/-- Counterexample to claim C5 as stated: with retention bound 1, two
calls of crear_backup_automatico outside Streamlit Cloud mode leave 2
snapshot files, not 1 - the rotation branch is gated on the cloud
flag. -/
theorem claimC5_counterexample :
    (iterBackups false 1 2).length = 2 ∧ ¬ (iterBackups false 1 2).length = 1 := by
  decide

/-- Claim C7: restaurar_backup with an existing snapshot first copies
the current live store (when present) to a rescue file, then
overwrites the live store with the snapshot and reloads the in-memory
caches from it, returning True; with a missing snapshot it returns
False and leaves the live store unchanged. -/
theorem claimC7_theorem : ∀ (snapshot : Option Nat) (st : RestoreState),
    (snapshot = none →
      (restaurarBackup snapshot st).1 = false ∧
      (restaurarBackup snapshot st).2.db = st.db) ∧
    (∀ c, snapshot = some c →
      (restaurarBackup snapshot st).1 = true ∧
      (restaurarBackup snapshot st).2.db = some c ∧
      (restaurarBackup snapshot st).2.caches = some c ∧
      (∀ old, st.db = some old → old ∈ (restaurarBackup snapshot st).2.rescues)) := by
  intro snapshot st
  constructor
  · rintro rfl
    cases hdb : st.db <;> simp [restaurarBackup, hdb]
  · rintro c rfl
    cases hdb : st.db with
    | none => simp [restaurarBackup, hdb]
    | some old =>
        refine ⟨by simp [restaurarBackup, hdb], by simp [restaurarBackup, hdb],
          by simp [restaurarBackup, hdb], ?_⟩
        intro old2 h2
        have hoo : old2 = old := (Option.some.inj h2).symm
        subst hoo
        simp [restaurarBackup, hdb]

/-- Witness for C7: restoring snapshot content 3 over a live store with
content 7. -/
theorem claimC7_witness :
    (restaurarBackup (some 3) ⟨some 7, [], none⟩).1 = true ∧
    (restaurarBackup (some 3) ⟨some 7, [], none⟩).2.db = some 3 ∧
    (restaurarBackup (some 3) ⟨some 7, [], none⟩).2.caches = some 3 ∧
    7 ∈ (restaurarBackup (some 3) ⟨some 7, [], none⟩).2.rescues := by
  have h := (claimC7_theorem (some 3) ⟨some 7, [], none⟩).2 3 rfl
  exact ⟨h.1, h.2.1, h.2.2.1, h.2.2.2 7 rfl⟩

/-- Claim C8: every imported user record lacking a password_hash field
is stored with the same fixed placeholder hash, the hash of the
constant temporary password "temp123". -/
theorem claimC8_theorem : ∀ (hashFn : String → String) (users : List JsonUser)
    (u : JsonUser), u ∈ users → u.password_hash = none →
    (∃ su ∈ importUsuarios hashFn users,
       su.username = u.username ∧ su.password_hash = hashFn ("temp123")) ∧
    (∀ v ∈ users, v.password_hash = none →
       (importUser hashFn v).password_hash = (importUser hashFn u).password_hash) := by
  intro hashFn users u hu hnone
  constructor
  · refine ⟨importUser hashFn u, List.mem_map_of_mem _ hu, rfl, ?_⟩
    simp [importUser, hnone]
  · intro v hv hvnone
    simp [importUser, hnone, hvnone]

/-- Witness for C8: a one-user document without password_hash, with the
identity function standing for the hash. -/
theorem claimC8_witness :
    (∃ su ∈ importUsuarios (fun s => s) [⟨("u1"), none, ("admin"), ("Ana"), none⟩],
       su.username = ("u1") ∧ su.password_hash = (fun s : String => s) ("temp123")) ∧
    (∀ v ∈ [(⟨("u1"), none, ("admin"), ("Ana"), none⟩ : JsonUser)], v.password_hash = none →
       (importUser (fun s => s) v).password_hash =
       (importUser (fun s => s) ⟨("u1"), none, ("admin"), ("Ana"), none⟩).password_hash) :=
  claimC8_theorem (fun s => s) [⟨("u1"), none, ("admin"), ("Ana"), none⟩]
    ⟨("u1"), none, ("admin"), ("Ana"), none⟩ (List.mem_singleton.mpr rfl) rfl

/-- Claim C10: get_turnos_empleado_mes returns the empty dictionary
whenever the employee id is absent from the empleados table or an
internal error occurs, and a result with any day key at all is only
produced when the employee exists and no error occurred.  (The source
wraps its whole body in try/except and returns {} from the except
branch, so no exception escapes to the caller; the embedding is a total
function.) -/
theorem claimC10_theorem : ∀ (empleados : List Empleado) (s : List TurnoRow)
    (empleadoId mes ano : Nat) (dbError : Bool),
    ((empleados.any (fun e => e.id = empleadoId) = false ∨ dbError = true) →
      ∀ d, getTurnosEmpleadoMes empleados s empleadoId mes ano dbError d = none) ∧
    ((∃ d, getTurnosEmpleadoMes empleados s empleadoId mes ano dbError d ≠ none) →
      empleados.any (fun e => e.id = empleadoId) = true ∧ dbError = false) := by
  intro empleados s empleadoId mes ano dbError
  constructor
  · intro h d
    rcases h with h | h
    · cases dbError with
      | false => simp [getTurnosEmpleadoMes, h]
      | true => simp [getTurnosEmpleadoMes]
    · simp [getTurnosEmpleadoMes, h]
  · intro h
    rcases h with ⟨d, hd⟩
    cases hdb : dbError with
    | true => exact absurd (by simp [getTurnosEmpleadoMes, hdb]) hd
    | false =>
        cases hany : empleados.any (fun e => e.id = empleadoId) with
        | false => exact absurd (by simp [getTurnosEmpleadoMes, hdb, hany]) hd
        | true => exact ⟨rfl, rfl⟩

/-- Witness for C10: a store queried for an employee id that is not in
the (empty) empleados table yields no entry for day 3. -/
theorem claimC10_witness :
    getTurnosEmpleadoMes [] [⟨1, 2, 2025, 5, some ("20")⟩] 1 2 2025 false 3 = none :=
  (claimC10_theorem [] [⟨1, 2, 2025, 5, some ("20")⟩] 1 2 2025 false).1
    (Or.inl rfl) 3

/-! ### get_turnos_empleado_mes characterisation (C1) -/

theorem mkTurnosDict_apply (num : Nat) (turnos : List (Nat × Option String)) (d : Nat) :
    mkTurnosDict num turnos d =
      ((turnos.reverse.find? (fun p => p.1 = d)).map
        (fun p => some (normalizeCodigo p.2))).getD
        (if 1 ≤ d ∧ d ≤ num then some ("") else none) := by
  unfold mkTurnosDict
  exact @foldl_update_eq (Nat × Option String) Nat (Option String) _
    (fun p => p.1) (fun p => some (normalizeCodigo p.2)) turnos
    (fun d => if 1 ≤ d ∧ d ≤ num then some ("") else none) d

theorem find?_map_filter_turnos (l : List TurnoRow) (empleadoId mes ano d : Nat) :
    ((l.filter
        (fun r => r.empleado_id = empleadoId ∧ r.mes = mes ∧ r.ano = ano)).map
      (fun r => (r.dia, r.codigo))).find? (fun p => p.1 = d) =
      (l.find? (fun r => keyOf r = Key.mk empleadoId mes ano d)).map
        (fun r => (r.dia, r.codigo)) := by
  induction l with
  | nil => rfl
  | cons r l ih =>
      by_cases hP : r.empleado_id = empleadoId ∧ r.mes = mes ∧ r.ano = ano
      · rw [List.filter_cons_of_pos (by simpa using hP), List.map_cons]
        by_cases hd : r.dia = d
        · have hkey : keyOf r = Key.mk empleadoId mes ano d := by
            simp [keyOf, Key.mk.injEq, hP.1, hP.2.1, hP.2.2, hd]
          rw [List.find?_cons_of_pos _ (by simpa using hd),
            List.find?_cons_of_pos _ (by simpa using hkey)]
          rfl
        · have hkey : ¬ keyOf r = Key.mk empleadoId mes ano d := by
            simp [keyOf, Key.mk.injEq, hd]
          rw [List.find?_cons_of_neg _ (by simpa using hd),
            List.find?_cons_of_neg _ (by simpa using hkey), ih]
      · have hkey : ¬ keyOf r = Key.mk empleadoId mes ano d := by
          simp only [keyOf, Key.mk.injEq]
          tauto
        rw [List.filter_cons_of_neg (by simpa using hP),
          List.find?_cons_of_neg _ (by simpa using hkey), ih]

theorem queryTurnos_reverse_find (s : List TurnoRow) (empleadoId mes ano d : Nat) :
    (queryTurnos s empleadoId mes ano).reverse.find? (fun p => p.1 = d) =
      (s.reverse.find? (fun r => keyOf r = Key.mk empleadoId mes ano d)).map
        (fun r => (r.dia, r.codigo)) := by
  unfold queryTurnos
  rw [← List.map_reverse, ← List.filter_reverse]
  exact find?_map_filter_turnos s.reverse empleadoId mes ano d

theorem getTurnos_char (empleados : List Empleado) (s : List TurnoRow)
    (empleadoId mes ano : Nat)
    (hany : empleados.any (fun e => e.id = empleadoId) = true) (d : Nat) :
    getTurnosEmpleadoMes empleados s empleadoId mes ano false d =
      match lookupK s ⟨empleadoId, mes, ano, d⟩ with
      | some cod => some (normalizeCodigo cod)
      | none => if 1 ≤ d ∧ d ≤ monthrange ano mes then some ("") else none := by
  unfold getTurnosEmpleadoMes
  rw [if_neg Bool.false_ne_true, if_pos hany, mkTurnosDict_apply, queryTurnos_reverse_find]
  unfold lookupK
  cases s.reverse.find? (fun r => keyOf r = Key.mk empleadoId mes ano d) with
  | none => rfl
  | some r => rfl

/-- Claim C1 (amended): for an employee present in the empleados table,
no internal error, and a store whose matching rows all have days within
the month, get_turnos_empleado_mes returns a dictionary whose key set
is exactly 1..days_in_month(ano, mes); a day with a stored row maps to
its stripped code unless the code is null, blank after stripping, or
"nan" case-insensitively (those map to ""), and a day with no row maps
to "". -/
theorem claimC1_amended : ∀ (empleados : List Empleado) (s : List TurnoRow)
    (empleadoId mes ano : Nat),
    empleados.any (fun e => e.id = empleadoId) = true →
    mallaInv s →
    (∀ r ∈ s, r.empleado_id = empleadoId → r.mes = mes → r.ano = ano →
       1 ≤ r.dia ∧ r.dia ≤ monthrange ano mes) →
    ∀ d, getTurnosEmpleadoMes empleados s empleadoId mes ano false d =
      if 1 ≤ d ∧ d ≤ monthrange ano mes
      then some (normalizeCodigo ((lookupK s ⟨empleadoId, mes, ano, d⟩).join))
      else none := by
  intro empleados s empleadoId mes ano hany hinv hrange d
  rw [getTurnos_char empleados s empleadoId mes ano hany d]
  cases hX : lookupK s ⟨empleadoId, mes, ano, d⟩ with
  | none =>
      by_cases hd : 1 ≤ d ∧ d ≤ monthrange ano mes
      · rw [if_pos hd, if_pos hd]; rfl
      · rw [if_neg hd, if_neg hd]
  | some cod =>
      have hfind : ∃ r, s.reverse.find? (fun r => keyOf r = Key.mk empleadoId mes ano d)
          = some r ∧ r.codigo = cod := by
        unfold lookupK at hX
        cases hf : s.reverse.find? (fun r => keyOf r = Key.mk empleadoId mes ano d) with
        | none => rw [hf] at hX; cases hX
        | some r =>
            rw [hf] at hX
            exact ⟨r, rfl, Option.some.inj hX⟩
      obtain ⟨r, hr, hcod⟩ := hfind
      have hmem : r ∈ s := List.mem_reverse.mp (List.mem_of_find?_eq_some hr)
      have hkey : keyOf r = Key.mk empleadoId mes ano d := by
        have h := List.find?_some hr
        simpa using h
      have h1 : r.empleado_id = empleadoId := congrArg Key.empleadoId hkey
      have h2 : r.mes = mes := congrArg Key.mes hkey
      have h3 : r.ano = ano := congrArg Key.ano hkey
      have h4 : r.dia = d := congrArg Key.dia hkey
      have hb := hrange r hmem h1 h2 h3
      rw [h4] at hb
      simp [hb, Option.join]

/-- Counterexample to claim C1 as stated: a stored code "nan" is
returned as "" rather than as the stored code, and a stored row with
day 40 (reachable through the JSON import, which does not validate
days) adds a 40 key to the February dictionary, whose key set is then
not exactly 1..28. -/
theorem claimC1_counterexample :
    getTurnosEmpleadoMes [⟨1, 1, ("123")⟩]
      [⟨1, 2, 2025, 5, some ("nan")⟩, ⟨1, 2, 2025, 40, some ("20")⟩]
      1 2 2025 false 5 = some ("") ∧
    ¬ getTurnosEmpleadoMes [⟨1, 1, ("123")⟩]
      [⟨1, 2, 2025, 5, some ("nan")⟩, ⟨1, 2, 2025, 40, some ("20")⟩]
      1 2 2025 false 5 = some ("nan") ∧
    getTurnosEmpleadoMes [⟨1, 1, ("123")⟩]
      [⟨1, 2, 2025, 5, some ("nan")⟩, ⟨1, 2, 2025, 40, some ("20")⟩]
      1 2 2025 false 40 = some ("20") ∧
    monthrange 2025 2 = 28 := by
  decide

/-- Witness for C1 (amended) at a concrete one-row February store. -/
theorem claimC1_witness :
    getTurnosEmpleadoMes [⟨1, 1, ("123")⟩] [⟨1, 2, 2025, 15, some ("VC")⟩]
      1 2 2025 false 15 =
      (if 1 ≤ 15 ∧ 15 ≤ monthrange 2025 2
       then some (normalizeCodigo
         ((lookupK [⟨1, 2, 2025, 15, some ("VC")⟩] ⟨1, 2, 2025, 15⟩).join))
       else none) :=
  claimC1_amended [⟨1, 1, ("123")⟩] [⟨1, 2, 2025, 15, some ("VC")⟩] 1 2 2025
    (by decide) (by decide) (by decide) 15

/-! ### Write-list lemmas for guardar_malla_turnos (C3, C4, C6, C9) -/

theorem keyOf_mkRow (k : Key) (v : Option String) : keyOf (mkRow k v) = k := by
  cases k; rfl

theorem applyWrites_cons (w : Write) (W : List Write) (s : List TurnoRow) :
    applyWrites (w :: W) s = applyWrites W (upsertTurno s w.1 w.2) := rfl

theorem applyWrites_append (W1 W2 : List Write) (s : List TurnoRow) :
    applyWrites (W1 ++ W2) s = applyWrites W2 (applyWrites W1 s) :=
  List.foldl_append ..

theorem saveRowTurnos_eq (empId mes ano : Nat) (row : GridRow) :
    ∀ (days : List Nat) (s : List TurnoRow),
      saveRowTurnos empId mes ano row days s =
        applyWrites (rowWrites empId mes ano row days) s := by
  intro days
  induction days with
  | nil => intro s; rfl
  | cons d days ih =>
      intro s
      show (d :: days).foldl _ s = applyWrites (rowWrites empId mes ano row (d :: days)) s
      unfold rowWrites
      rw [List.foldl_cons, List.filterMap_cons]
      cases hc : row.cells d with
      | none => simp only [hc, Option.map_none']; exact ih s
      | some c => simp only [hc, Option.map_some']; exact ih _

theorem guardar_eq_applyWrites (empleados : List Empleado) :
    ∀ (dfMalla : List GridRow) (mes ano : Nat) (s : List TurnoRow),
      guardarMallaTurnos empleados dfMalla mes ano s =
        applyWrites (writesOf empleados dfMalla mes ano) s := by
  intro df
  induction df with
  | nil => intro mes ano s; rfl
  | cons row df ih =>
      intro mes ano s
      show (row :: df).foldl _ s = _
      rw [List.foldl_cons]
      unfold writesOf
      rw [List.flatMap_cons, applyWrites_append]
      have hstep : ∀ s2 : List TurnoRow,
          (if row.cc = "" then s2
           else match mapIdsOf empleados row.cc with
             | none => s2
             | some empId =>
                 saveRowTurnos empId mes ano row (List.range' 1 (monthrange ano mes)) s2) =
          applyWrites
            (if row.cc = "" then []
             else match mapIdsOf empleados row.cc with
               | none => []
               | some empId =>
                   rowWrites empId mes ano row (List.range' 1 (monthrange ano mes))) s2 := by
        intro s2
        by_cases hcc : row.cc = ""
        · rw [if_pos hcc, if_pos hcc]; rfl
        · rw [if_neg hcc, if_neg hcc]
          cases hmap : mapIdsOf empleados row.cc with
          | none => rfl
          | some empId => exact saveRowTurnos_eq empId mes ano row _ s2
      rw [← hstep s]
      exact ih mes ano _

theorem canonW_sublist (W : List Write) : (canonW W).Sublist W := by
  induction W with
  | nil => exact List.Sublist.refl []
  | cons w ws ih =>
      unfold canonW
      by_cases h : ws.any (fun w2 => w2.1 = w.1)
      · rw [if_pos h]; exact ih.cons w
      · rw [if_neg h]; exact ih.cons₂ w

theorem canonW_eq_self (W : List Write) (h : (W.map Prod.fst).Nodup) : canonW W = W := by
  induction W with
  | nil => rfl
  | cons w ws ih =>
      rw [List.map_cons] at h
      rcases List.nodup_cons.mp h with ⟨hnot, hnd⟩
      unfold canonW
      rw [if_neg ?_, ih hnd]
      intro hany
      rcases List.any_eq_true.mp hany with ⟨w2, hw2, heq⟩
      exact hnot (List.mem_map.mpr ⟨w2, hw2, by simpa using heq⟩)

theorem canonW_key_mem (W : List Write) (w : Write) (hw : w ∈ canonW W) :
    W.any (fun w2 => w2.1 = w.1) = true :=
  List.any_eq_true.mpr ⟨w, (canonW_sublist W).mem hw, by simp⟩

theorem canonW_cons (w : Write) (ws : List Write) :
    canonW (w :: ws) =
      if ws.any (fun w2 => w2.1 = w.1) then canonW ws else w :: canonW ws := rfl

theorem applyWrites_char : ∀ (W : List Write) (s : List TurnoRow),
    applyWrites W s =
      s.filter (fun r => ! W.any (fun w => w.1 = keyOf r)) ++
        (canonW W).map (fun w => mkRow w.1 w.2) := by
  intro W
  induction W with
  | nil =>
      intro s
      show s = s.filter _ ++ []
      rw [List.append_nil]
      rw [List.filter_eq_self.mpr]
      intro r _
      simp
  | cons w ws ih =>
      intro s
      rw [applyWrites_cons, ih]
      unfold upsertTurno
      rw [List.filter_append, List.filter_filter]
      by_cases hmem : ws.any (fun w2 => w2.1 = w.1) = true
      · have hrow : ([mkRow w.1 w.2].filter (fun r => ! ws.any (fun w2 => w2.1 = keyOf r)))
            = [] := by
          simp [keyOf_mkRow, hmem]
        rw [hrow, List.append_nil]
        rw [canonW_cons, if_pos hmem]
        refine congrArg₂ _ (List.filter_congr ?_) rfl
        intro r _
        rw [List.any_cons]
        by_cases h1 : w.1 = keyOf r
        · have h2 : ¬ keyOf r ≠ w.1 := fun h => h h1.symm
          simp [h1, h2]
        · have h2 : keyOf r ≠ w.1 := fun h => h1 h.symm
          simp [h1, h2, Bool.and_comm]
      · have hfalse : (ws.any fun w2 => decide (w2.1 = w.1)) = false := by
          cases h : ws.any fun w2 => decide (w2.1 = w.1)
          · rfl
          · exact absurd h hmem
        have hrow : ([mkRow w.1 w.2].filter (fun r => ! ws.any (fun w2 => w2.1 = keyOf r)))
            = [mkRow w.1 w.2] := by
          simp [keyOf_mkRow, hfalse]
        rw [hrow]
        rw [canonW_cons, if_neg hmem, List.map_cons, List.append_assoc]
        refine congrArg₂ _ (List.filter_congr ?_) rfl
        intro r _
        rw [List.any_cons]
        by_cases h1 : w.1 = keyOf r
        · have h2 : ¬ keyOf r ≠ w.1 := fun h => h h1.symm
          simp [h1, h2]
        · have h2 : keyOf r ≠ w.1 := fun h => h1 h.symm
          simp [h1, h2, Bool.and_comm]

theorem applyWrites_idem (W : List Write) (s : List TurnoRow) :
    applyWrites W (applyWrites W s) = applyWrites W s := by
  rw [applyWrites_char W s, applyWrites_char W]
  rw [List.filter_append]
  have h2 : ((canonW W).map (fun w => mkRow w.1 w.2)).filter
      (fun r => ! W.any (fun w => w.1 = keyOf r)) = [] := by
    apply List.filter_eq_nil_iff.mpr
    intro r hr
    rcases List.mem_map.mp hr with ⟨w, hw, rfl⟩
    have hk := canonW_key_mem W w hw
    simp [keyOf_mkRow, hk]
  have h1 : ((s.filter (fun r => ! W.any (fun w => w.1 = keyOf r))).filter
      (fun r => ! W.any (fun w => w.1 = keyOf r))) =
      s.filter (fun r => ! W.any (fun w => w.1 = keyOf r)) := by
    rw [List.filter_filter]
    exact List.filter_congr (fun r _ => Bool.and_self _)
  rw [h1, h2, List.append_nil]

/-- Claim C6: saving the same wide table twice in succession leaves the
malla_turnos store (the Assignment relation of the data model) in the
same state as saving it once.  Every INSERT OR REPLACE of the save
writes a value computed from the wide table alone, so the second pass
rewrites exactly the rows the first pass wrote. -/
theorem claimC6_theorem : ∀ (empleados : List Empleado) (dfMalla : List GridRow)
    (mes ano : Nat) (s : List TurnoRow),
    guardarMallaTurnos empleados dfMalla mes ano
      (guardarMallaTurnos empleados dfMalla mes ano s) =
    guardarMallaTurnos empleados dfMalla mes ano s := by
  intro empleados dfMalla mes ano s
  simp only [guardar_eq_applyWrites]
  exact applyWrites_idem _ _

/-! ### Uniqueness invariant (C9) -/

theorem mallaInv_upsert (s : List TurnoRow) (k : Key) (v : Option String)
    (h : mallaInv s) : mallaInv (upsertTurno s k v) := by
  unfold mallaInv upsertTurno
  rw [List.map_append]
  have hsub : ((s.filter (fun r => keyOf r ≠ k)).map keyOf).Sublist (s.map keyOf) :=
    (List.filter_sublist s).map keyOf
  refine List.Nodup.append (hsub.nodup h) (by simp) ?_
  intro a ha hb
  rcases List.mem_map.mp ha with ⟨r, hr, rfl⟩
  have hne : keyOf r ≠ k := by simpa using List.of_mem_filter hr
  have hk : keyOf r = k := by
    simpa [keyOf_mkRow] using hb
  exact hne hk

theorem mallaInv_applyWrites (W : List Write) :
    ∀ s, mallaInv s → mallaInv (applyWrites W s) := by
  induction W with
  | nil => intro s h; exact h
  | cons w ws ih =>
      intro s h
      rw [applyWrites_cons]
      exact ih _ (mallaInv_upsert s w.1 w.2 h)

theorem importMallaRows_inv : ∀ (rows acc res : List TurnoRow), mallaInv acc →
    importMallaRows acc rows = some res → mallaInv res := by
  intro rows
  induction rows with
  | nil =>
      intro acc res h heq
      unfold importMallaRows at heq
      obtain rfl := Option.some.inj heq
      exact h
  | cons r rows ih =>
      intro acc res h heq
      rw [show importMallaRows acc (r :: rows) =
            (match insertTurnoUnique acc r with
             | none => none
             | some acc2 => importMallaRows acc2 rows) from rfl] at heq
      cases hins : insertTurnoUnique acc r with
      | none => rw [hins] at heq; cases heq
      | some acc2 =>
          rw [hins] at heq
          have hinv2 : mallaInv acc2 := by
            unfold insertTurnoUnique at hins
            by_cases hany : acc.any (fun r2 => keyOf r2 = keyOf r) = true
            · rw [if_pos hany] at hins; cases hins
            · rw [if_neg hany] at hins
              obtain rfl := Option.some.inj hins
              unfold mallaInv
              rw [List.map_append]
              refine List.Nodup.append h (by simp) ?_
              intro a ha hb
              rcases List.mem_map.mp ha with ⟨r2, hr2, rfl⟩
              have hk : keyOf r2 = keyOf r := by simpa using hb
              exact hany (List.any_eq_true.mpr ⟨r2, hr2, by simp [hk]⟩)
          exact ih acc2 res hinv2 heq

/-- Claim C9: both mutation paths of the malla_turnos table preserve
the at-most-one-row-per-(employee, year, month, day) invariant:
guardar_malla_turnos upserts through INSERT OR REPLACE under the UNIQUE
constraint, and importar_backup_json clears the table and re-inserts
document rows, rolling the whole transaction back if a plain INSERT
hits the UNIQUE constraint.  (The schema seeding of init_db inserts no
malla_turnos rows, so the empty initial table satisfies the invariant
trivially.) -/
theorem claimC9_theorem : ∀ (empleados : List Empleado) (dfMalla : List GridRow)
    (mes ano : Nat) (s docRows : List TurnoRow), mallaInv s →
    mallaInv (guardarMallaTurnos empleados dfMalla mes ano s) ∧
    mallaInv (importarMalla s docRows) := by
  intro empleados dfMalla mes ano s docRows h
  constructor
  · rw [guardar_eq_applyWrites]
    exact mallaInv_applyWrites _ s h
  · unfold importarMalla
    cases hgo : importMallaRows [] docRows with
    | some s2 => exact importMallaRows_inv docRows [] s2 (by simp [mallaInv]) hgo
    | none => exact h

/-- Witness for C9 at a concrete non-empty store, table and document. -/
theorem claimC9_witness :
    mallaInv (guardarMallaTurnos [⟨1, 1, ("123")⟩]
      [{ cc := ("123"), cells := fun d => if d = 2 then some (Cell.str ("20")) else none }]
      1 2025 [⟨1, 1, 2025, 1, some ("15")⟩]) ∧
    mallaInv (importarMalla [⟨1, 1, 2025, 1, some ("15")⟩] [⟨2, 3, 2024, 7, none⟩]) :=
  claimC9_theorem [⟨1, 1, ("123")⟩]
    [{ cc := ("123"), cells := fun d => if d = 2 then some (Cell.str ("20")) else none }]
    1 2025 [⟨1, 1, 2025, 1, some ("15")⟩] [⟨2, 3, 2024, 7, none⟩] (by decide)

/-! ### Lookup after a save (C4) -/

theorem lookupK_upsert (s : List TurnoRow) (k : Key) (v : Option String) (q : Key) :
    lookupK (upsertTurno s k v) q = if q = k then some v else lookupK s q := by
  unfold lookupK upsertTurno
  rw [List.reverse_append]
  simp only [List.reverse_cons, List.reverse_nil, List.nil_append, List.singleton_append]
  by_cases hq : q = k
  · subst hq
    rw [List.find?_cons_of_pos _ (by simp [keyOf_mkRow])]
    simp [mkRow]
  · rw [List.find?_cons_of_neg _ (by simp [keyOf_mkRow]; exact fun h => hq h.symm)]
    rw [← List.filter_reverse, find?_filter_eq]
    have hpred : (fun r => decide (keyOf r ≠ k) && decide (keyOf r = q)) =
        (fun r => decide (keyOf r = q)) := by
      funext r
      by_cases h : keyOf r = q
      · have hne : keyOf r ≠ k := by rw [h]; exact hq
        simp [h, hne, hq]
      · simp [h]
    rw [hpred, if_neg hq]

theorem lookupK_applyWrites (W : List Write) : ∀ (s : List TurnoRow) (q : Key),
    lookupK (applyWrites W s) q = (lastVal W q).elim (lookupK s q) some := by
  induction W with
  | nil => intro s q; rfl
  | cons w ws ih =>
      intro s q
      rw [applyWrites_cons, ih]
      have hlast : lastVal (w :: ws) q =
          (lastVal ws q).elim (if w.1 = q then some w.2 else none) some := by
        unfold lastVal
        rw [List.reverse_cons, List.find?_append]
        cases hf : ws.reverse.find? (fun w2 => w2.1 = q) with
        | some w2 => simp [hf]
        | none =>
            simp only [hf, Option.map_none', Option.none_or, Option.elim]
            by_cases hw : w.1 = q
            · rw [List.find?_cons_of_pos _ (by simp [hw])]
              simp [hw]
            · rw [List.find?_cons_of_neg _ (by simp [hw])]
              simp [hw]
      rw [hlast]
      cases hl : lastVal ws q with
      | some v => simp [Option.elim]
      | none =>
          simp only [Option.elim]
          rw [lookupK_upsert]
          by_cases hw : q = w.1
          · rw [if_pos hw, if_pos (hw.symm)]
          · rw [if_neg hw, if_neg (fun h => hw h.symm)]

theorem lastVal_rowWrites_none (empId mes ano : Nat) (row : GridRow) (days : List Nat)
    (d : Nat) (hc : row.cells d = none) :
    lastVal (rowWrites empId mes ano row days) ⟨empId, mes, ano, d⟩ = none := by
  unfold lastVal
  have hfind : (rowWrites empId mes ano row days).reverse.find?
      (fun w => w.1 = (⟨empId, mes, ano, d⟩ : Key)) = none := by
    apply List.find?_eq_none.mpr
    intro w hw
    rw [List.mem_reverse] at hw
    rcases List.mem_filterMap.mp hw with ⟨d2, hd2, hmap⟩
    cases hc2 : row.cells d2 with
    | none => rw [hc2] at hmap; cases hmap
    | some c2 =>
        rw [hc2] at hmap
        obtain rfl := Option.some.inj hmap
        simp only [decide_eq_true_eq]
        intro hkey
        have hdd : d2 = d := congrArg Key.dia hkey
        rw [hdd, hc] at hc2
        cases hc2
  rw [hfind]
  rfl

theorem lastVal_rowWrites_some (empId mes ano : Nat) (row : GridRow) (days : List Nat)
    (d : Nat) (hd : d ∈ days) (c : Cell) (hc : row.cells d = some c) :
    lastVal (rowWrites empId mes ano row days) ⟨empId, mes, ano, d⟩ =
      some (procesarCelda c) := by
  unfold lastVal
  have hfind : (rowWrites empId mes ano row days).reverse.find?
      (fun w => w.1 = (⟨empId, mes, ano, d⟩ : Key)) =
      some (⟨empId, mes, ano, d⟩, procesarCelda c) := by
    apply find?_of_unique_match
    · rw [List.mem_reverse]
      exact List.mem_filterMap.mpr ⟨d, hd, by rw [hc]; rfl⟩
    · simp
    · intro y hy hpy
      rw [List.mem_reverse] at hy
      rcases List.mem_filterMap.mp hy with ⟨d2, hd2, hmap⟩
      cases hc2 : row.cells d2 with
      | none => rw [hc2] at hmap; cases hmap
      | some c2 =>
          rw [hc2] at hmap
          obtain rfl := Option.some.inj hmap
          have hkey : (⟨empId, mes, ano, d2⟩ : Key) = ⟨empId, mes, ano, d⟩ := by
            simpa using hpy
          have hdd : d2 = d := congrArg Key.dia hkey
          subst hdd
          rw [hc] at hc2
          obtain rfl := Option.some.inj hc2
          rfl
  rw [hfind]
  rfl

/-- Claim C4 (amended): for a wide-table row whose non-empty CC
resolves to a known employee, guardar_malla_turnos upserts one
Assignment row for every day column of the month that is present in
the table - a blank or null (NaN) cell sets the code to null rather
than deleting the row - but a day whose column is absent from the
table is skipped entirely (the if col_name in row guard), leaving any
existing Assignment row for that day untouched. -/
theorem claimC4_amended : ∀ (empleados : List Empleado) (dfMalla : List GridRow)
    (row : GridRow) (mes ano : Nat) (s : List TurnoRow) (empId : Nat),
    row.cc ≠ "" → mapIdsOf empleados row.cc = some empId →
    ∀ d, 1 ≤ d → d ≤ monthrange ano mes →
      (∀ c, row.cells d = some c →
        lookupK (guardarMallaTurnos empleados (dfMalla ++ [row]) mes ano s)
          ⟨empId, mes, ano, d⟩ = some (procesarCelda c)) ∧
      (row.cells d = none →
        lookupK (guardarMallaTurnos empleados (dfMalla ++ [row]) mes ano s)
          ⟨empId, mes, ano, d⟩ =
        lookupK (guardarMallaTurnos empleados dfMalla mes ano s)
          ⟨empId, mes, ano, d⟩) := by
  intro empleados dfMalla row mes ano s empId hcc hmap d h1 h2
  have hW : writesOf empleados (dfMalla ++ [row]) mes ano =
      writesOf empleados dfMalla mes ano ++
        rowWrites empId mes ano row (List.range' 1 (monthrange ano mes)) := by
    unfold writesOf
    rw [List.flatMap_append]
    congr 1
    show ((if row.cc = "" then []
           else match mapIdsOf empleados row.cc with
             | none => []
             | some empId =>
                 rowWrites empId mes ano row (List.range' 1 (monthrange ano mes))) ++ [])
        = _
    rw [List.append_nil, if_neg hcc, hmap]
  have hsplit : guardarMallaTurnos empleados (dfMalla ++ [row]) mes ano s =
      applyWrites (rowWrites empId mes ano row (List.range' 1 (monthrange ano mes)))
        (guardarMallaTurnos empleados dfMalla mes ano s) := by
    rw [guardar_eq_applyWrites, hW, applyWrites_append, ← guardar_eq_applyWrites]
  rw [hsplit]
  constructor
  · intro c hc
    rw [lookupK_applyWrites]
    rw [lastVal_rowWrites_some empId mes ano row _ d
      (List.mem_range'_1.mpr ⟨h1, by omega⟩) c hc]
    rfl
  · intro hc
    rw [lookupK_applyWrites, lastVal_rowWrites_none empId mes ano row _ d hc]
    rfl

/-- Counterexample to claim C4 as stated: the wide table carries only
the column for day 2 of January 2025; the claim (every day column of
the month, including missing cells, is upserted with a null code)
would replace the stored code "15" of day 1 with null, but the code
skips the absent column and day 1 keeps its code. -/
theorem claimC4_counterexample :
    lookupK (guardarMallaTurnos [⟨1, 1, ("123")⟩]
        [{ cc := ("123"),
           cells := fun d => if d = 2 then some (Cell.str ("20")) else none }]
        1 2025 [⟨1, 1, 2025, 1, some ("15")⟩]) ⟨1, 1, 2025, 1⟩
      = some (some ("15")) ∧
    ¬ lookupK (guardarMallaTurnos [⟨1, 1, ("123")⟩]
        [{ cc := ("123"),
           cells := fun d => if d = 2 then some (Cell.str ("20")) else none }]
        1 2025 [⟨1, 1, 2025, 1, some ("15")⟩]) ⟨1, 1, 2025, 1⟩
      = some none := by
  constructor
  · decide
  · decide

/-- Witness for C4 (amended): the present day-2 column is upserted with
its stripped code. -/
theorem claimC4_witness :
    lookupK (guardarMallaTurnos [⟨1, 1, ("123")⟩]
        ([] ++ [{ cc := ("123"),
                  cells := fun d => if d = 2 then some (Cell.str ("20")) else none }])
        1 2025 [⟨1, 1, 2025, 1, some ("15")⟩]) ⟨1, 1, 2025, 2⟩
      = some (procesarCelda (Cell.str ("20"))) :=
  ((claimC4_amended [⟨1, 1, ("123")⟩] []
      { cc := ("123"), cells := fun d => if d = 2 then some (Cell.str ("20")) else none }
      1 2025 [⟨1, 1, 2025, 1, some ("15")⟩] 1 (by decide) (by decide) 2
      (by decide) (by decide)).1) (Cell.str ("20")) rfl

/-! ### Round-trip lemmas (C3) -/

theorem mapIdsOf_self (empleados : List Empleado)
    (hND : (empleados.map (fun e => e.cedula)).Nodup) (e : Empleado)
    (he : e ∈ empleados) : mapIdsOf empleados e.cedula = some e.id := by
  have hfind : empleados.reverse.find? (fun e2 => e2.cedula = e.cedula) = some e := by
    apply find?_of_unique_match
    · exact List.mem_reverse.mpr he
    · simp
    · intro y hy hpy
      rw [List.mem_reverse] at hy
      have hcc : y.cedula = e.cedula := by simpa using hpy
      exact List.inj_on_of_nodup_map hND hy he hcc
  calc mapIdsOf empleados e.cedula
      = ((empleados.reverse.find? (fun e2 => e2.cedula = e.cedula)).map
          (fun e2 => some e2.id)).getD none :=
        @foldl_update_eq Empleado String (Option Nat) _ (fun e2 => e2.cedula)
          (fun e2 => some e2.id) empleados (fun _ => none) e.cedula
    _ = some e.id := by rw [hfind]; rfl

theorem writesOf_cons (empleados : List Empleado) (row : GridRow) (df : List GridRow)
    (mes ano : Nat) :
    writesOf empleados (row :: df) mes ano =
      (if row.cc = "" then []
       else match mapIdsOf empleados row.cc with
         | none => []
         | some empId => rowWrites empId mes ano row (List.range' 1 (monthrange ano mes)))
      ++ writesOf empleados df mes ano := by
  unfold writesOf
  rw [List.flatMap_cons]

theorem rowWrites_cons (empId mes ano : Nat) (row : GridRow) (d : Nat) (days : List Nat) :
    rowWrites empId mes ano row (d :: days) =
      (match row.cells d with
       | some c => [((⟨empId, mes, ano, d⟩ : Key), procesarCelda c)]
       | none => []) ++ rowWrites empId mes ano row days := by
  unfold rowWrites
  rw [List.filterMap_cons]
  cases row.cells d <;> simp

theorem rowWrites_gridRow (A : List TurnoRow) (mes ano : Nat) (e : Empleado) :
    ∀ (days : List Nat), (∀ d ∈ days, 1 ≤ d ∧ d ≤ monthrange ano mes) →
      rowWrites e.id mes ano (gridRowOf A mes ano e) days =
        days.map (fun d => ((⟨e.id, mes, ano, d⟩ : Key),
          procesarCelda (Cell.str (cellValueOf A e.id mes ano d)))) := by
  intro days
  induction days with
  | nil => intro _; rfl
  | cons d days ih =>
      intro hdays
      have hd := hdays d (List.mem_cons_self d days)
      have hcell : (gridRowOf A mes ano e).cells d =
          some (Cell.str (cellValueOf A e.id mes ano d)) := by
        unfold gridRowOf
        simp only
        rw [if_pos hd]
      rw [rowWrites_cons, hcell, List.map_cons,
        ih (fun d2 hd2 => hdays d2 (List.mem_cons_of_mem d hd2)), List.singleton_append]

theorem writesOf_grid (empleados : List Empleado) (A : List TurnoRow) (mes ano : Nat)
    (hNE : ∀ e ∈ empleados, e.cedula ≠ "")
    (hND : (empleados.map (fun e => e.cedula)).Nodup) :
    ∀ (L : List Empleado), (∀ e ∈ L, e ∈ empleados) →
      writesOf empleados (L.map (gridRowOf A mes ano)) mes ano =
        L.flatMap (fun e => (List.range' 1 (monthrange ano mes)).map (fun d =>
          ((⟨e.id, mes, ano, d⟩ : Key),
            procesarCelda (Cell.str (cellValueOf A e.id mes ano d))))) := by
  intro L
  induction L with
  | nil => intro _; rfl
  | cons e L ih =>
      intro hsub
      have he : e ∈ empleados := hsub e (List.mem_cons_self e L)
      rw [List.map_cons, writesOf_cons, List.flatMap_cons,
        ih (fun e2 he2 => hsub e2 (List.mem_cons_of_mem e he2))]
      congr 1
      have hcc : (gridRowOf A mes ano e).cc = e.cedula := rfl
      rw [hcc, if_neg (hNE e he), mapIdsOf_self empleados hND e he]
      exact rowWrites_gridRow A mes ano e _
        (fun d hd => by
          rcases List.mem_range'_1.mp hd with ⟨h1, h2⟩
          exact ⟨h1, by omega⟩)

theorem key_mem_block (A : List TurnoRow) (mes ano : Nat) (e : Empleado) (k : Key)
    (hk : k ∈ ((List.range' 1 (monthrange ano mes)).map (fun d =>
        ((⟨e.id, mes, ano, d⟩ : Key),
          procesarCelda (Cell.str (cellValueOf A e.id mes ano d))))).map Prod.fst) :
    k.empleadoId = e.id := by
  rw [List.map_map] at hk
  rcases List.mem_map.mp hk with ⟨d, _, rfl⟩
  rfl

theorem gridWrites_keys_nodup (empleados : List Empleado) (A : List TurnoRow)
    (mes ano : Nat) (hidND : (empleados.map (fun e => e.id)).Nodup) :
    ((empleados.flatMap (fun e => (List.range' 1 (monthrange ano mes)).map (fun d =>
        ((⟨e.id, mes, ano, d⟩ : Key),
          procesarCelda (Cell.str (cellValueOf A e.id mes ano d)))))).map
      Prod.fst).Nodup := by
  rw [List.map_flatMap]
  rw [List.nodup_flatMap]
  constructor
  · intro e _
    rw [List.map_map]
    refine List.Nodup.map ?_ (List.nodup_range' 1 (monthrange ano mes) 1 (by omega))
    intro a b hab
    have hab2 : (⟨e.id, mes, ano, a⟩ : Key) = ⟨e.id, mes, ano, b⟩ := by
      simpa using hab
    exact congrArg Key.dia hab2
  · have hpw : empleados.Pairwise (fun e1 e2 => e1.id ≠ e2.id) := by
      have h2 := hidND
      unfold List.Nodup at h2
      rw [List.pairwise_map] at h2
      exact h2
    refine hpw.imp ?_
    intro e1 e2 hne
    intro k hk1 hk2
    have h1 := key_mem_block A mes ano e1 k (by exact hk1)
    have h2 := key_mem_block A mes ano e2 k (by exact hk2)
    exact hne (h1.symm.trans h2)

/-- Claim C3 (amended): loading the month grid from assignment store A
and saving it back into an empty store reconstructs exactly the
stripped, non-blank assignments of A that lie on days 1..days_in_month
and belong to employees of the table (which, per the schema, has
pairwise-distinct non-empty cedulas and distinct ids): a row with a
non-null code is stored iff A holds a code c for that employee and day
with pyStrip c nonempty, and the stored code is pyStrip c.  Codes with
surrounding whitespace are trimmed and whitespace-only codes become
null, so the reconstruction is exact only up to stripping. -/
theorem claimC3_amended : ∀ (empleados : List Empleado) (A : List TurnoRow)
    (mes ano : Nat),
    (∀ e ∈ empleados, e.cedula ≠ "") →
    (empleados.map (fun e => e.cedula)).Nodup →
    (empleados.map (fun e => e.id)).Nodup →
    mallaInv A →
    ∀ r : TurnoRow,
      (r ∈ guardarMallaTurnos empleados (getMallaTurnos empleados A mes ano) mes ano []
         ∧ r.codigo ≠ none)
      ↔ (∃ e ∈ empleados, r.empleado_id = e.id ∧ r.mes = mes ∧ r.ano = ano ∧
           1 ≤ r.dia ∧ r.dia ≤ monthrange ano mes ∧
           ∃ c, lookupK A ⟨e.id, mes, ano, r.dia⟩ = some (some c) ∧
             pyStrip c ≠ "" ∧ r.codigo = some (pyStrip c)) := by
  intro empleados A mes ano hNE hcedND hidND hinvA r
  have hresult : guardarMallaTurnos empleados (getMallaTurnos empleados A mes ano)
      mes ano []
      = (empleados.flatMap (fun e => (List.range' 1 (monthrange ano mes)).map (fun d =>
          ((⟨e.id, mes, ano, d⟩ : Key),
            procesarCelda (Cell.str (cellValueOf A e.id mes ano d)))))).map
          (fun w => mkRow w.1 w.2) := by
    rw [guardar_eq_applyWrites]
    have hgrid : getMallaTurnos empleados A mes ano
        = empleados.map (gridRowOf A mes ano) := rfl
    rw [hgrid, writesOf_grid empleados A mes ano hNE hcedND empleados (fun e he => he)]
    rw [applyWrites_char, List.filter_nil,
      canonW_eq_self _ (gridWrites_keys_nodup empleados A mes ano hidND),
      List.nil_append]
  rw [hresult]
  constructor
  · rintro ⟨hmem, hcod⟩
    rcases List.mem_map.mp hmem with ⟨w, hw, rfl⟩
    rcases List.mem_flatMap.mp hw with ⟨e, he, hwe⟩
    rcases List.mem_map.mp hwe with ⟨d, hd, rfl⟩
    rcases List.mem_range'_1.mp hd with ⟨hd1, hd2⟩
    have hcod2 : procesarCelda (Cell.str (cellValueOf A e.id mes ano d)) ≠ none := hcod
    refine ⟨e, he, rfl, rfl, rfl, hd1, (show d ≤ monthrange ano mes by omega), ?_⟩
    cases hX : lookupK A ⟨e.id, mes, ano, d⟩ with
    | none =>
        exfalso
        apply hcod2
        have hcv : cellValueOf A e.id mes ano d = "" := by
          unfold cellValueOf; rw [hX]
        rw [hcv]
        decide
    | some cod =>
        cases cod with
        | none =>
            exfalso
            apply hcod2
            have hcv : cellValueOf A e.id mes ano d = "" := by
              unfold cellValueOf; rw [hX]
            rw [hcv]
            decide
        | some c =>
            by_cases hc0 : c = ""
            · exfalso
              apply hcod2
              have hcv : cellValueOf A e.id mes ano d = "" := by
                subst hc0; unfold cellValueOf; rw [hX]; simp
              rw [hcv]
              decide
            · have hcv : cellValueOf A e.id mes ano d = c := by
                unfold cellValueOf; rw [hX]; simp [hc0]
              by_cases hstrip : pyStrip c = ""
              · exfalso
                apply hcod2
                rw [hcv]
                simp [procesarCelda, hstrip]
              · refine ⟨c, hX, hstrip, ?_⟩
                show procesarCelda (Cell.str (cellValueOf A e.id mes ano d))
                    = some (pyStrip c)
                rw [hcv]
                simp [procesarCelda, hstrip]
  · rintro ⟨e, he, hid, hmes, hano, hd1, hd2, c, hX, hstrip, hcod⟩
    have hc0 : c ≠ "" := fun h => hstrip (by rw [h]; decide)
    have hcv : cellValueOf A e.id mes ano r.dia = c := by
      unfold cellValueOf; rw [hX]; simp [hc0]
    have hproc : procesarCelda (Cell.str (cellValueOf A e.id mes ano r.dia))
        = some (pyStrip c) := by
      rw [hcv]
      simp [procesarCelda, hstrip]
    constructor
    · apply List.mem_map.mpr
      refine ⟨((⟨e.id, mes, ano, r.dia⟩ : Key),
        procesarCelda (Cell.str (cellValueOf A e.id mes ano r.dia))), ?_, ?_⟩
      · exact List.mem_flatMap.mpr ⟨e, he, List.mem_map.mpr ⟨r.dia,
          List.mem_range'_1.mpr ⟨hd1, by omega⟩, rfl⟩⟩
      · show mkRow ⟨e.id, mes, ano, r.dia⟩
            (procesarCelda (Cell.str (cellValueOf A e.id mes ano r.dia))) = r
        rw [hproc]
        have hr : r = mkRow ⟨e.id, mes, ano, r.dia⟩ (some (pyStrip c)) := by
          cases r with
          | mk rid rmes rano rdia rcod =>
              simp only at hid hmes hano hcod
              subst hid
              subst hmes
              subst hano
              subst hcod
              rfl
        exact hr.symm
    · rw [hcod]
      simp

/-- Counterexample to claim C3 as stated: the store holds the code
" VC " (non-empty, with surrounding whitespace) for employee 1 on
15/2/2025.  The round trip stores the stripped "VC" instead, so the
assignment with its exact non-empty code is not reconstructed. -/
theorem claimC3_counterexample :
    (⟨1, 2, 2025, 15, some ("VC")⟩ : TurnoRow) ∈
      guardarMallaTurnos [⟨1, 1, ("123")⟩]
        (getMallaTurnos [⟨1, 1, ("123")⟩] [⟨1, 2, 2025, 15, some (" VC ")⟩] 2 2025)
        2 2025 [] ∧
    ¬ (⟨1, 2, 2025, 15, some (" VC ")⟩ : TurnoRow) ∈
      guardarMallaTurnos [⟨1, 1, ("123")⟩]
        (getMallaTurnos [⟨1, 1, ("123")⟩] [⟨1, 2, 2025, 15, some (" VC ")⟩] 2 2025)
        2 2025 [] ∧
    (some (" VC ") : Option String) ≠ none := by
  refine ⟨by decide, by decide, by decide⟩

/-- Witness for C3 (amended): a clean store round-trips its single
assignment. -/
theorem claimC3_witness :
    (⟨1, 2, 2025, 15, some ("VC")⟩ : TurnoRow) ∈
      guardarMallaTurnos [⟨1, 1, ("123")⟩]
        (getMallaTurnos [⟨1, 1, ("123")⟩] [⟨1, 2, 2025, 15, some ("VC")⟩] 2 2025)
        2 2025 [] ∧
    (some ("VC") : Option String) ≠ none := by
  have h := (claimC3_amended [⟨1, 1, ("123")⟩] [⟨1, 2, 2025, 15, some ("VC")⟩] 2 2025
    (by decide) (by decide) (by decide) (by decide)
    ⟨1, 2, 2025, 15, some ("VC")⟩).mpr
    ⟨⟨1, 1, ("123")⟩, by decide, rfl, rfl, rfl, by decide, by decide,
      ("VC"), by decide, by decide, rfl⟩
  exact ⟨h.1, by decide⟩
